import Mathlib

/-!
Verification of the SQLite-backed dictionary database port
(`ext/js/data/database.js` and `ext/js/dictionary/dictionary-database.js`).

The embedding models each table as a Lean list of row records (one record per
stored row, in storage scan order), and each database operation as a pure
function translated from the JavaScript source.  SQL `WHERE
json_extract(data, col) = ?` clauses become list filters comparing the
extracted field with the bound parameter for string equality, which is the
semantics SQLite gives them (`=` performs no wildcard expansion).
-/

set_option maxHeartbeats 1000000

namespace Yomitan

/-- A JavaScript value stored in a document field, as far as the queries under
verification inspect it: absent (`undefined`), a string, or a number. -/
inductive JsField where
  | undef
  | str (s : String)
  | num (n : Int)
deriving DecidableEq, Repr

/-- JavaScript truthiness for the `JsField` fragment: `undefined`, the empty
string and `0` are falsy. -/
def jsTruthy : JsField → Bool
  | .undef => false
  | .str s => s.length != 0
  | .num n => n != 0

/-- JavaScript `a || b` on document fields. -/
def jsOr (a b : JsField) : JsField :=
  if jsTruthy a then a else b

/-- JavaScript `s.split(' ')` at the codepoint level: chunks between single
space characters, empty chunks preserved. -/
def splitChars : List Char → List (List Char)
  | [] => [[]]
  | c :: rest =>
    match splitChars rest with
    | [] => [[]]
    | chunk :: chunks =>
      if c = ' ' then [] :: chunk :: chunks else (c :: chunk) :: chunks

/-- JavaScript `s.split(' ')` on strings. -/
def splitOnSpace (s : String) : List String :=
  (splitChars s.data).map (fun l => ⟨l⟩)

/-- `DictionaryDatabase._splitField`: a non-empty string is split on single
spaces, anything else becomes the empty array. -/
def splitField : JsField → List String
  | .str s => if s.length > 0 then splitOnSpace s else []
  | _ => []

/-- A stored `terms` row (`DatabaseTermEntryWithId`): the document fields the
matching layer reads, plus the store-assigned `id`. -/
structure TermRow where
  id : Nat
  dictionary : String
  expression : String
  reading : String
  expressionReverse : String
  readingReverse : String
  sequence : JsField
  definitionTags : JsField
  tags : JsField
  termTags : JsField
  rules : JsField
  glossary : List String
  score : Int
deriving DecidableEq, Repr

/-- The `matchType` mode selector (`'exact' | 'prefix' | 'suffix'`). -/
inductive MatchType where
  | exact
  | prefixMatch
  | suffixMatch
deriving DecidableEq, Repr

/-- The `matchSource` of a term entry (`'term' | 'reading' | 'sequence'`). -/
inductive MatchSource where
  | term
  | reading
  | sequence
deriving DecidableEq, Repr

/-- A `TermEntry` result produced by `DictionaryDatabase._createTerm`. -/
structure TermEntry where
  index : Nat
  matchType : MatchType
  matchSource : MatchSource
  term : String
  reading : String
  definitionTags : List String
  termTags : List String
  rules : List String
  definitions : List String
  score : Int
  dictionary : String
  id : Nat
  sequence : Int
deriving DecidableEq, Repr

/-- Modelled from the spec: `stringReverse` (imported from
`ext/js/core/utilities.js`, which is not among the provided sources) builds
suffix keys by "reversing the string's codepoints". -/
def stringReverse (s : String) : String :=
  ⟨s.data.reverse⟩

/-- `DictionaryDatabase._createTerm`. -/
def createTerm (matchSource : MatchSource) (matchType : MatchType)
    (row : TermRow) (index : Nat) : TermEntry :=
  { index := index
    matchType := matchType
    matchSource := matchSource
    term := row.expression
    reading := row.reading
    definitionTags := splitField (jsOr row.definitionTags row.tags)
    termTags := splitField row.termTags
    rules := splitField row.rules
    definitions := row.glossary
    score := row.score
    dictionary := row.dictionary
    id := row.id
    sequence := match row.sequence with | .num n => n | _ => -1 }

/-- `DictionaryDatabase._createTermGeneric`: the match source is `term` for
index 0 and `reading` for index 1, and the match type is upgraded to `exact`
when the matched forward field equals the queried item verbatim. -/
def createTermGeneric (matchType : MatchType) (row : TermRow)
    (item : String) (itemIndex indexIndex : Nat) : TermEntry :=
  let matchSourceIsTerm := indexIndex == 0
  let matchSource := if matchSourceIsTerm then MatchSource.term else MatchSource.reading
  let mt := if (if matchSourceIsTerm then row.expression else row.reading) == item
    then MatchType.exact else matchType
  createTerm matchSource mt row itemIndex

/-- Query construction in `findTermsBulk`: `exact` uses the item verbatim,
`prefix` appends `%`, `suffix` reverses the codepoints then appends `%`. -/
def termsCreateQuery (matchType : MatchType) (item : String) : String :=
  match matchType with
  | .exact => item
  | .prefixMatch => item ++ "%"
  | .suffixMatch => stringReverse item ++ "%"

/-- The index column queried for a given `indexIndex`:
`['expressionReverse', 'readingReverse']` for suffix mode and
`['expression', 'reading']` otherwise. -/
def termIndexValue (matchType : MatchType) (indexIndex : Nat) (r : TermRow) : String :=
  match matchType, indexIndex with
  | .suffixMatch, 0 => r.expressionReverse
  | .suffixMatch, _ => r.readingReverse
  | _, 0 => r.expression
  | _, _ => r.reading

/-- One `findMultiBulk` sub-query: `SELECT ... WHERE json_extract(data, col) = ?`
returns the rows whose extracted column equals the bound parameter. -/
def sqlEqRows (table : List TermRow) (getIx : TermRow → String) (q : String) : List TermRow :=
  table.filter (fun r => getIx r == q)

/-- The stateful predicate closed over by `findTermsBulk`: reject rows from
disabled dictionaries, and reject (while recording) row ids already visited. -/
def termsPredicate (dictionaries : List String) (visited : List Nat)
    (row : TermRow) : Bool × List Nat :=
  if dictionaries.contains row.dictionary then
    if visited.contains row.id then (false, visited)
    else (true, row.id :: visited)
  else (false, visited)

/-- The synchronous row loop of one `findMultiBulk` sub-query in
`findTermsBulk`: each row is run through the visited-set predicate and, when
accepted, emitted via `createTermGeneric`. -/
def processTermRows (dictionaries : List String) (matchType : MatchType)
    (item : String) (itemIndex indexIndex : Nat) :
    List TermRow → List Nat → List TermEntry × List Nat
  | [], visited => ([], visited)
  | row :: rest, visited =>
    let (ok, visited1) := termsPredicate dictionaries visited row
    let (es, visited2) :=
      processTermRows dictionaries matchType item itemIndex indexIndex rest visited1
    ((if ok then [createTermGeneric matchType row item itemIndex indexIndex] else []) ++ es,
      visited2)

/-- `findTermsBulk`, parameterised by the completion order of the concurrently
issued `(item, index)` sub-queries: the sub-queries run in the order given by
`order`, threading the visited set; out-of-range item indices contribute
nothing. -/
def findTermsBulkFrom (table : List TermRow) (termList : List String)
    (dictionaries : List String) (matchType : MatchType) :
    List (Nat × Nat) → List Nat → List TermEntry × List Nat
  | [], visited => ([], visited)
  | (i, j) :: rest, visited =>
    match termList[i]? with
    | none => findTermsBulkFrom table termList dictionaries matchType rest visited
    | some item =>
      let rows := sqlEqRows table (termIndexValue matchType j)
        (termsCreateQuery matchType item)
      let (es, visited1) := processTermRows dictionaries matchType item i j rows visited
      let (es2, visited2) :=
        findTermsBulkFrom table termList dictionaries matchType rest visited1
      (es ++ es2, visited2)

/-- The order in which the nested `Promise.all` loops start the sub-queries:
all index columns for item 0, then item 1, and so on. -/
def canonicalOrder (itemCount indexCount : Nat) : List (Nat × Nat) :=
  (List.range itemCount).flatMap (fun i => (List.range indexCount).map (fun j => (i, j)))

/-- `DictionaryDatabase.findTermsBulk` with the canonical sub-query order
(two index columns per item). -/
def findTermsBulk (table : List TermRow) (termList : List String)
    (dictionaries : List String) (matchType : MatchType) : List TermEntry :=
  (findTermsBulkFrom table termList dictionaries matchType
    (canonicalOrder termList.length 2) []).1

/-- A stored terms row hit by several input terms at once. -/
def c4Row : TermRow :=
  { id := 7, dictionary := "dict", expression := "ねこ", reading := "ねこ",
    expressionReverse := stringReverse "ねこ", readingReverse := stringReverse "ねこ",
    sequence := .undef, definitionTags := .undef, tags := .undef,
    termTags := .undef, rules := .undef, glossary := [], score := 0 }

/-- A stored terms row whose reading `"このねこ"` ends with the term `"ねこ"`,
with the precomputed reversed index fields the suffix mode queries. -/
def c1Row : TermRow :=
  { id := 1, dictionary := "dict", expression := "ねこの", reading := "このねこ",
    expressionReverse := stringReverse "ねこの", readingReverse := stringReverse "このねこ",
    sequence := .undef, definitionTags := .undef, tags := .undef,
    termTags := .undef, rules := .undef, glossary := [], score := 0 }

/-- A stored terms row with `definitionTags` absent but a legacy `tags` field
present. -/
def c10Row : TermRow :=
  { id := 2, dictionary := "dict", expression := "寿司", reading := "すし",
    expressionReverse := stringReverse "寿司", readingReverse := stringReverse "すし",
    sequence := .undef, definitionTags := .undef, tags := .str "n vs",
    termTags := .undef, rules := .undef, glossary := [], score := 0 }

/-- A row for exercising the amended C10 theorem at a concrete input. -/
def c10WitnessRow : TermRow :=
  { c10Row with termTags := JsField.str "a b", sequence := JsField.num 5 }


/-- `new Map(pairs).get(q)`: the JS `Map` constructor calls `set` for each pair
in order, so a later pair with the same key overwrites an earlier one. -/
def jsMapGet {A : Type} : List (String × A) → String → Option A
  | [], _ => none
  | (k, v) :: rest, q =>
    match jsMapGet rest q with
    | some v2 => some v2
    | none => if k == q then some v else none

/-- `Database.findFirstBulk`: one IN-list query over all built keys, a key→row
map (later rows overwrite earlier ones on a duplicate key), then one slot per
input item resolved from the map through the predicate. -/
def findFirstBulk {Row Item : Type} (table : List Row) (getIx : Row → String)
    (items : List Item) (createQuery : Item → String)
    (predicate : Row → Item → Bool) : List (Option Row) :=
  if items.isEmpty then []
  else
    let queries := items.map createQuery
    let rows := table.filter (fun r => queries.contains (getIx r))
    let pairs := rows.map (fun r => (getIx r, r))
    items.map (fun item =>
      match jsMapGet pairs (createQuery item) with
      | some row => if predicate row item then some row else none
      | none => none)

/-- A stored `tagMeta` row as `findTagMetaBulk` reads it. -/
structure TagRow where
  id : Nat
  dictionary : String
  name : String
deriving DecidableEq, Repr

/-- A `DictionaryAndQueryRequest` item (`{query, dictionary}`). -/
structure DictionaryAndQueryRequest where
  query : String
  dictionary : String
deriving DecidableEq, Repr

/-- `DictionaryDatabase.findTagMetaBulk`: `findFirstBulk` on `tagMeta` over the
`name` index with the item's `query` as key and a same-dictionary predicate. -/
def findTagMetaBulk (table : List TagRow) (items : List DictionaryAndQueryRequest) :
    List (Option TagRow) :=
  findFirstBulk table (fun r => r.name) items (fun it => it.query)
    (fun row it => row.dictionary == it.dictionary)

/-- The earlier of two stored tagMeta rows sharing the index key `"k"`. -/
def c2Row1 : TagRow := { id := 1, dictionary := "d", name := "k" }

/-- The later of two stored tagMeta rows sharing the index key `"k"`. -/
def c2Row2 : TagRow := { id := 2, dictionary := "d", name := "k" }


/-- A content-table row: the store-assigned `id` plus the `dictionary` index
field read by the deletion and counting paths. -/
structure CRow where
  id : Nat
  dictionary : String
deriving DecidableEq, Repr

/-- A `dictionaries` manifest row, keyed by `title`. -/
structure DictRow where
  id : Nat
  title : String
deriving DecidableEq, Repr

/-- The persistent store: the six content tables plus the manifest table. -/
structure Store where
  kanji : List CRow
  kanjiMeta : List CRow
  terms : List CRow
  termMeta : List CRow
  tagMeta : List CRow
  media : List CRow
  dictionaries : List DictRow
deriving DecidableEq, Repr

/-- `Database.bulkDelete`: with no usable index, return without reporting;
otherwise count the rows matching the key and report `(0, 0)` and stop when
none match; with a `filterKeys` callback, snapshot the matching row ids,
narrow them through the callback, stop reporting `(0, total)` if the narrowed
set is empty, else delete the rows whose id is in the narrowed set and report
`(narrowed, total)`; without a callback, delete by key directly and report
`(total, total)`.  Returns the surviving rows paired with the list of
`onProgress` invocations. -/
def bulkDelete {Row : Type} (rows : List Row) (rowId : Row → Nat)
    (getKey : Row → String) (hasIndex : Bool) (query : String)
    (filterKeys : Option (List Nat → List Nat)) :
    List Row × List (Nat × Nat) :=
  if !hasIndex then (rows, [])
  else
    let totalCount := (rows.filter (fun r => getKey r == query)).length
    if totalCount = 0 then (rows, [(0, 0)])
    else
      match filterKeys with
      | some f =>
        let keys := (rows.filter (fun r => getKey r == query)).map rowId
        let filteredKeys := f keys
        if filteredKeys.isEmpty then (rows, [(0, totalCount)])
        else (rows.filter (fun r => !(filteredKeys.contains (rowId r))),
          [(filteredKeys.length, totalCount)])
      | none =>
        (rows.filter (fun r => !(getKey r == query)), [(totalCount, totalCount)])

/-- `deleteDictionary`, group 1: bulk-delete the matching rows of the six
content tables (`dictionary == name`) — the `filterKeys` callback installed by
`deleteDictionary` returns the key snapshot unchanged (its only effects are
progress accounting). -/
def deleteDictionaryGroup1 (s : Store) (name : String) : Store :=
  { kanji := (bulkDelete s.kanji (fun r => r.id) (fun r => r.dictionary)
      true name (some (fun ks => ks))).1
    kanjiMeta := (bulkDelete s.kanjiMeta (fun r => r.id) (fun r => r.dictionary)
      true name (some (fun ks => ks))).1
    terms := (bulkDelete s.terms (fun r => r.id) (fun r => r.dictionary)
      true name (some (fun ks => ks))).1
    termMeta := (bulkDelete s.termMeta (fun r => r.id) (fun r => r.dictionary)
      true name (some (fun ks => ks))).1
    tagMeta := (bulkDelete s.tagMeta (fun r => r.id) (fun r => r.dictionary)
      true name (some (fun ks => ks))).1
    media := (bulkDelete s.media (fun r => r.id) (fun r => r.dictionary)
      true name (some (fun ks => ks))).1
    dictionaries := s.dictionaries }

/-- `deleteDictionary`, group 2 (run only after group 1 fully completes):
bulk-delete the matching manifest row (`title == name`). -/
def deleteDictionaryGroup2 (s : Store) (name : String) : Store :=
  { s with dictionaries := (bulkDelete s.dictionaries (fun r => r.id)
      (fun r => r.title) true name (some (fun ks => ks))).1 }

/-- `DictionaryDatabase.deleteDictionary`: group 1, then group 2. -/
def deleteDictionary (s : Store) (name : String) : Store :=
  deleteDictionaryGroup2 (deleteDictionaryGroup1 s name) name

/-- A store used to exercise `deleteDictionary` at a concrete input. -/
def c3Store : Store :=
  { kanji := [⟨1, "Foo"⟩, ⟨2, "Bar"⟩]
    kanjiMeta := [⟨1, "Foo"⟩]
    terms := [⟨1, "Foo"⟩, ⟨2, "Foo"⟩, ⟨3, "Bar"⟩]
    termMeta := []
    tagMeta := [⟨1, "Bar"⟩]
    media := []
    dictionaries := [⟨1, "Foo"⟩, ⟨2, "Bar"⟩] }

/-- A single content row of dictionary `"Foo"`. -/
def c5Row : CRow := ⟨1, "Foo"⟩


/-- A stored `termMeta` row (`DatabaseTermMeta`). -/
structure TermMetaRow where
  id : Nat
  dictionary : String
  expression : String
  mode : String
  data : String
deriving DecidableEq, Repr

/-- A stored `kanjiMeta` row (`DatabaseKanjiMeta`). -/
structure KanjiMetaRow where
  id : Nat
  dictionary : String
  character : String
  mode : String
  data : String
deriving DecidableEq, Repr

/-- A `TermMeta` result. -/
structure TermMeta where
  index : Nat
  term : String
  mode : String
  data : String
  dictionary : String
deriving DecidableEq, Repr

/-- A `KanjiMeta` result. -/
structure KanjiMeta where
  index : Nat
  character : String
  mode : String
  data : String
  dictionary : String
deriving DecidableEq, Repr

/-- `DictionaryDatabase._createTermMeta`: the switch on `mode` accepts exactly
`freq`, `pitch` and `ipa`, and throws `Unknown mode` otherwise. -/
def createTermMeta (row : TermMetaRow) (index : Nat) : Except String TermMeta :=
  match row.mode with
  | "freq" => .ok ⟨index, row.expression, row.mode, row.data, row.dictionary⟩
  | "pitch" => .ok ⟨index, row.expression, row.mode, row.data, row.dictionary⟩
  | "ipa" => .ok ⟨index, row.expression, row.mode, row.data, row.dictionary⟩
  | other => .error ("Unknown mode: " ++ other)

/-- `DictionaryDatabase._createKanjiMeta`: no switch on `mode`; the row's
fields are passed through unchanged. -/
def createKanjiMeta (row : KanjiMetaRow) (index : Nat) : KanjiMeta :=
  ⟨index, row.character, row.mode, row.data, row.dictionary⟩

/-- The row loop of one `findTermMetaBulk` sub-query: rows failing the
enabled-dictionaries predicate are skipped; accepted rows go through
`_createTermMeta`, whose throw rejects the whole call. -/
def processTermMetaRows (dictionaries : List String) (itemIndex : Nat) :
    List TermMetaRow → Except String (List TermMeta)
  | [] => .ok []
  | row :: rest =>
    if dictionaries.contains row.dictionary then
      match createTermMeta row itemIndex with
      | .error e => .error e
      | .ok m =>
        match processTermMetaRows dictionaries itemIndex rest with
        | .error e => .error e
        | .ok ms => .ok (m :: ms)
    else processTermMetaRows dictionaries itemIndex rest

/-- `findTermMetaBulk` over the single `expression` index, processing items in
order starting at the given item index. -/
def findTermMetaBulkFrom (table : List TermMetaRow) (dictionaries : List String) :
    Nat → List String → Except String (List TermMeta)
  | _, [] => .ok []
  | itemIndex, item :: rest =>
    match processTermMetaRows dictionaries itemIndex
        (table.filter (fun r => r.expression == item)) with
    | .error e => .error e
    | .ok ms =>
      match findTermMetaBulkFrom table dictionaries (itemIndex + 1) rest with
      | .error e => .error e
      | .ok more => .ok (ms ++ more)

/-- `DictionaryDatabase.findTermMetaBulk`. -/
def findTermMetaBulk (table : List TermMetaRow) (termList : List String)
    (dictionaries : List String) : Except String (List TermMeta) :=
  findTermMetaBulkFrom table dictionaries 0 termList

/-- The row loop of one `findKanjiMetaBulk` sub-query: no mode validation. -/
def processKanjiMetaRows (dictionaries : List String) (itemIndex : Nat) :
    List KanjiMetaRow → List KanjiMeta
  | [] => []
  | row :: rest =>
    if dictionaries.contains row.dictionary then
      createKanjiMeta row itemIndex :: processKanjiMetaRows dictionaries itemIndex rest
    else processKanjiMetaRows dictionaries itemIndex rest

/-- `findKanjiMetaBulk` over the single `character` index. -/
def findKanjiMetaBulkFrom (table : List KanjiMetaRow) (dictionaries : List String) :
    Nat → List String → List KanjiMeta
  | _, [] => []
  | itemIndex, item :: rest =>
    processKanjiMetaRows dictionaries itemIndex
        (table.filter (fun r => r.character == item)) ++
      findKanjiMetaBulkFrom table dictionaries (itemIndex + 1) rest

/-- `DictionaryDatabase.findKanjiMetaBulk`. -/
def findKanjiMetaBulk (table : List KanjiMetaRow) (kanjiList : List String)
    (dictionaries : List String) : List KanjiMeta :=
  findKanjiMetaBulkFrom table dictionaries 0 kanjiList

/-- A stored kanjiMeta row with an unrecognised mode. -/
def c7Row : KanjiMetaRow := ⟨1, "d", "火", "bogus", "x"⟩


/-- A lookup key as `Database.find` receives it: either a plain value or an
`IDBKeyRange.only`-style object carrying the value in `lower`. -/
inductive DBQuery where
  | plain (s : String)
  | range (lower : String)
deriving DecidableEq, Repr

/-- The `(query && typeof query is object && lower in query) ? query.lower :
query` unwrapping in `Database.find`. -/
def queryValue : DBQuery → String
  | .plain s => s
  | .range lower => lower

/-- `Database.find`: throws when the store is not open; returns the default
(modelled as `none`) when the index name is unusable, when no row's index
field equals the key (`LIMIT 1` keeps the first match in scan order), or when
the predicate rejects the matched row; otherwise returns the matched row. -/
def find {Row PredArg : Type} (isOpen : Bool) (table : List Row)
    (getIx : Row → String) (indexOk : Bool) (query : DBQuery)
    (predicate : Option (Row → PredArg → Bool)) (predicateArg : PredArg) :
    Except String (Option Row) :=
  if !isOpen then .error "Database not open"
  else if !indexOk then .ok none
  else
    let q := queryValue query
    match table.find? (fun r => getIx r == q) with
    | none => .ok none
    | some row =>
      match predicate with
      | some p => .ok (if p row predicateArg then some row else none)
      | none => .ok (some row)


/-- A declared store (`StoreDefinition`): the primary key's autoIncrement flag
and the declared index field names. -/
structure StoreDefinition where
  autoIncrement : Bool
  indices : List String
deriving DecidableEq, Repr

/-- One schema entry (`StructureDefinition`): its version plus the declared
tables. -/
structure StructureDefinition where
  version : Nat
  stores : List (String × StoreDefinition)
deriving DecidableEq, Repr

/-- The created-so-far state of one table: its created index field names
(the table's `id`/`data` columns are fixed at creation). -/
structure TableState where
  indices : List String
deriving DecidableEq, Repr

/-- The persisted schema state: `PRAGMA user_version` plus the existing tables
with their created indices. -/
structure SchemaState where
  userVersion : Nat
  tables : List (String × TableState)
deriving DecidableEq, Repr

/-- Look a table up in the schema's table list (the `sqlite_master` probe of
`_tableExists`, together with the table's created indices). -/
def lookupTable : List (String × TableState) → String → Option TableState
  | [], _ => none
  | p :: rest, k => if p.1 = k then some p.2 else lookupTable rest k

/-- Replace the state stored under a table name in the schema's table list. -/
def updateAssoc (l : List (String × TableState)) (k : String) (v : TableState) :
    List (String × TableState) :=
  l.map (fun p => if p.1 = k then (k, v) else p)

/-- `Database._createIndices`: `CREATE INDEX IF NOT EXISTS` for each declared
index — a no-op for an index that already exists.  Returns the new table
state and the number of indices actually created. -/
def createIndices (ts : TableState) : List String → TableState × Nat
  | [] => (ts, 0)
  | i :: rest =>
    let step := if ts.indices.contains i then (ts, 0)
      else (TableState.mk (ts.indices ++ [i]), 1)
    let next := createIndices step.1 rest
    (next.1, step.2 + next.2)

/-- `Database._createOrUpdateTable`: create the table if absent
(`CREATE TABLE IF NOT EXISTS`), then (re)create its declared indices.
Returns the new schema state and the number of schema changes performed. -/
def createOrUpdateTable (st : SchemaState) (tableName : String)
    (tdef : StoreDefinition) : SchemaState × Nat :=
  match lookupTable st.tables tableName with
  | some ts =>
    let next := createIndices ts tdef.indices
    ({ st with tables := updateAssoc st.tables tableName next.1 }, next.2)
  | none =>
    let next := createIndices (TableState.mk []) tdef.indices
    ({ st with tables := st.tables ++ [(tableName, next.1)] }, 1 + next.2)

/-- `Database._applySchemaChanges`: create or update every table declared by
one schema entry. -/
def applySchemaChanges (st : SchemaState) :
    List (String × StoreDefinition) → SchemaState × Nat
  | [] => (st, 0)
  | (name, tdef) :: rest =>
    let fst := createOrUpdateTable st name tdef
    let next := applySchemaChanges fst.1 rest
    (next.1, fst.2 + next.2)

/-- Apply one schema entry's changes, then persist its version
(`PRAGMA user_version = schema.version`). -/
def applyMigrationEntry (st : SchemaState) (schema : StructureDefinition) :
    SchemaState × Nat :=
  let applied := applySchemaChanges st schema.stores
  ({ applied.1 with userVersion := schema.version }, applied.2)

/-- The loop of `Database._performMigrations`: an entry is applied only when
`schema.version > currentVersion && schema.version <= targetVersion`, with
`currentVersion` fixed at entry to the loop. -/
def migrationFold (currentVersion targetVersion : Nat) :
    SchemaState → List StructureDefinition → SchemaState × Nat
  | st, [] => (st, 0)
  | st, schema :: rest =>
    if currentVersion < schema.version ∧ schema.version ≤ targetVersion then
      let fst := applyMigrationEntry st schema
      let next := migrationFold currentVersion targetVersion fst.1 rest
      (next.1, fst.2 + next.2)
    else migrationFold currentVersion targetVersion st rest

/-- `structure.sort((a, b) => a.version - b.version)`: a stable ascending sort
by version. -/
def sortSchemas (schemas : List StructureDefinition) : List StructureDefinition :=
  List.insertionSort (fun a b => a.version ≤ b.version) schemas

/-- `Database._performMigrations`. -/
def performMigrations (st : SchemaState) (currentVersion targetVersion : Nat)
    (schemas : List StructureDefinition) : SchemaState × Nat :=
  migrationFold currentVersion targetVersion st (sortSchemas schemas)

/-- The schema part of `Database.open`: read the persisted version and run the
migrations only when it is behind the target version. -/
def openStore (st : SchemaState) (version : Nat)
    (schemas : List StructureDefinition) : SchemaState × Nat :=
  if st.userVersion < version then
    performMigrations st st.userVersion version schemas
  else (st, 0)

/-- `migrationFold` with the version condition dropped: applies every entry of
the list unconditionally.  Used to state which entries the loop applies. -/
def applyEntries : SchemaState → List StructureDefinition → SchemaState × Nat
  | st, [] => (st, 0)
  | st, schema :: rest =>
    let fst := applyMigrationEntry st schema
    let next := applyEntries fst.1 rest
    (next.1, fst.2 + next.2)

/-- The `id` of an entry produced by `createTermGeneric` is the row's `id`. -/
theorem createTermGeneric_id (mt : MatchType) (row : TermRow)
    (item : String) (i j : Nat) : (createTermGeneric mt row item i j).id = row.id := rfl

/-- The visited set only grows while a sub-query's rows are processed. -/
theorem processTermRows_visited_mono (d : List String) (mt : MatchType) (item : String)
    (i j : Nat) (rows : List TermRow) :
    ∀ visited n, n ∈ visited → n ∈ (processTermRows d mt item i j rows visited).2 := by
  induction rows with
  | nil => intro visited n h; simpa [processTermRows] using h
  | cons row rest ih =>
    intro visited n h
    by_cases hd : row.dictionary ∈ d
    · by_cases hv : row.id ∈ visited
      · simpa [processTermRows, termsPredicate, hd, hv] using ih visited n h
      · simpa [processTermRows, termsPredicate, hd, hv] using
          ih (row.id :: visited) n (List.mem_cons_of_mem _ h)
    · simpa [processTermRows, termsPredicate, hd] using ih visited n h

/-- Every entry emitted while processing a sub-query's rows has its id recorded
in the final visited set and was not in the initial visited set. -/
theorem processTermRows_emitted (d : List String) (mt : MatchType) (item : String)
    (i j : Nat) (rows : List TermRow) :
    ∀ visited, ∀ e ∈ (processTermRows d mt item i j rows visited).1,
      e.id ∈ (processTermRows d mt item i j rows visited).2 ∧ e.id ∉ visited := by
  induction rows with
  | nil => intro visited e he; simp [processTermRows] at he
  | cons row rest ih =>
    intro visited e he
    by_cases hd : row.dictionary ∈ d
    · by_cases hv : row.id ∈ visited
      · simp only [processTermRows, termsPredicate] at he ⊢
        simp [hd, hv] at he ⊢
        exact ih visited e he
      · simp only [processTermRows, termsPredicate] at he ⊢
        simp [hd, hv] at he ⊢
        rcases he with he | he
        · refine ⟨?_, ?_⟩
          · rw [he]
            exact processTermRows_visited_mono d mt item i j rest (row.id :: visited)
              row.id (by simp [createTermGeneric_id])
          · rw [he]
            simpa [createTermGeneric_id] using hv
        · have h2 := ih (row.id :: visited) e he
          exact ⟨h2.1, fun hmem => h2.2 (List.mem_cons_of_mem _ hmem)⟩
    · simp only [processTermRows, termsPredicate] at he ⊢
      simp [hd] at he ⊢
      exact ih visited e he



/-- The entries emitted while processing one sub-query's rows have pairwise
distinct row ids. -/
theorem processTermRows_pairwise (d : List String) (mt : MatchType) (item : String)
    (i j : Nat) (rows : List TermRow) :
    ∀ visited, ((processTermRows d mt item i j rows visited).1).Pairwise
      (fun a b => a.id ≠ b.id) := by
  induction rows with
  | nil => intro visited; simp [processTermRows]
  | cons row rest ih =>
    intro visited
    by_cases hd : row.dictionary ∈ d
    · by_cases hv : row.id ∈ visited
      · simp only [processTermRows, termsPredicate]
        simpa [hd, hv] using ih visited
      · simp only [processTermRows, termsPredicate]
        simp [hd, hv]
        refine ⟨?_, ih (row.id :: visited)⟩
        intro e he hEq
        have h2 := processTermRows_emitted d mt item i j rest (row.id :: visited) e he
        rw [createTermGeneric_id] at hEq
        exact h2.2 (by simp [← hEq])
    · simp only [processTermRows, termsPredicate]
      simpa [hd] using ih visited

/-- The visited set only grows across sub-queries. -/
theorem findTermsBulkFrom_visited_mono (table : List TermRow) (termList : List String)
    (d : List String) (mt : MatchType) (order : List (Nat × Nat)) :
    ∀ visited n, n ∈ visited →
      n ∈ (findTermsBulkFrom table termList d mt order visited).2 := by
  induction order with
  | nil => intro visited n h; simpa [findTermsBulkFrom] using h
  | cons p rest ih =>
    intro visited n h
    obtain ⟨i, j⟩ := p
    cases hit : termList[i]? with
    | none => simpa [findTermsBulkFrom, hit] using ih visited n h
    | some item =>
      simp only [findTermsBulkFrom, hit]
      exact ih _ n (processTermRows_visited_mono d mt item i j _ visited n h)

/-- Every entry returned across the whole call has its id recorded in the final
visited set and was not in the initial visited set. -/
theorem findTermsBulkFrom_emitted (table : List TermRow) (termList : List String)
    (d : List String) (mt : MatchType) (order : List (Nat × Nat)) :
    ∀ visited, ∀ e ∈ (findTermsBulkFrom table termList d mt order visited).1,
      e.id ∈ (findTermsBulkFrom table termList d mt order visited).2 ∧ e.id ∉ visited := by
  induction order with
  | nil => intro visited e he; simp [findTermsBulkFrom] at he
  | cons p rest ih =>
    intro visited e he
    obtain ⟨i, j⟩ := p
    cases hit : termList[i]? with
    | none =>
      simp only [findTermsBulkFrom, hit] at he ⊢
      exact ih visited e he
    | some item =>
      simp only [findTermsBulkFrom, hit, List.mem_append] at he ⊢
      rcases he with he | he
      · have h1 := processTermRows_emitted d mt item i j
          (sqlEqRows table (termIndexValue mt j) (termsCreateQuery mt item)) visited e he
        exact ⟨findTermsBulkFrom_visited_mono table termList d mt rest _ e.id h1.1, h1.2⟩
      · have h2 := ih _ e he
        refine ⟨h2.1, fun hmem => h2.2 ?_⟩
        exact processTermRows_visited_mono d mt item i j _ visited e.id hmem

/-- Whatever the completion order of the sub-queries, the entries returned by
the call have pairwise distinct row ids. -/
theorem findTermsBulkFrom_pairwise (table : List TermRow) (termList : List String)
    (d : List String) (mt : MatchType) (order : List (Nat × Nat)) :
    ∀ visited, ((findTermsBulkFrom table termList d mt order visited).1).Pairwise
      (fun a b => a.id ≠ b.id) := by
  induction order with
  | nil => intro visited; simp [findTermsBulkFrom]
  | cons p rest ih =>
    intro visited
    obtain ⟨i, j⟩ := p
    cases hit : termList[i]? with
    | none => simpa [findTermsBulkFrom, hit] using ih visited
    | some item =>
      simp only [findTermsBulkFrom, hit]
      refine List.pairwise_append.mpr ⟨processTermRows_pairwise d mt item i j _ visited,
        ih _, ?_⟩
      intro a ha b hb
      have h1 := processTermRows_emitted d mt item i j _ visited a ha
      have h2 := findTermsBulkFrom_emitted table termList d mt rest _ b hb
      intro hEq
      exact h2.2 (hEq ▸ h1.1)

/-- Every id in the final visited set was either already visited or belongs to
an emitted entry (row loop). -/
theorem processTermRows_visited_source (d : List String) (mt : MatchType)
    (item : String) (i j : Nat) (rows : List TermRow) :
    ∀ visited n, n ∈ (processTermRows d mt item i j rows visited).2 →
      n ∈ visited ∨ ∃ e ∈ (processTermRows d mt item i j rows visited).1,
        e.id = n := by
  induction rows with
  | nil => intro visited n h; exact Or.inl (by simpa [processTermRows] using h)
  | cons row rest ih =>
    intro visited n h
    by_cases hd : row.dictionary ∈ d
    · by_cases hv : row.id ∈ visited
      · simp only [processTermRows, termsPredicate] at h ⊢
        simp [hd, hv] at h ⊢
        exact ih visited n h
      · simp only [processTermRows, termsPredicate] at h ⊢
        simp [hd, hv] at h ⊢
        rcases ih (row.id :: visited) n h with hn | ⟨e, he, hid⟩
        · rcases List.mem_cons.mp hn with hn | hn
          · subst hn
            refine Or.inr (Or.inl ?_)
            rw [createTermGeneric_id]
          · exact Or.inl hn
        · exact Or.inr (Or.inr ⟨e, he, hid⟩)
    · simp only [processTermRows, termsPredicate] at h ⊢
      simp [hd] at h ⊢
      exact ih visited n h

/-- Every id in the final visited set was either already visited or belongs to
an emitted entry (whole call). -/
theorem findTermsBulkFrom_visited_source (table : List TermRow)
    (termList : List String) (d : List String) (mt : MatchType)
    (order : List (Nat × Nat)) :
    ∀ visited n, n ∈ (findTermsBulkFrom table termList d mt order visited).2 →
      n ∈ visited ∨ ∃ e ∈ (findTermsBulkFrom table termList d mt order visited).1,
        e.id = n := by
  induction order with
  | nil => intro visited n h; exact Or.inl (by simpa [findTermsBulkFrom] using h)
  | cons p rest ih =>
    intro visited n h
    obtain ⟨i, j⟩ := p
    cases hit : termList[i]? with
    | none =>
      simp only [findTermsBulkFrom, hit] at h ⊢
      exact ih visited n h
    | some item =>
      simp only [findTermsBulkFrom, hit, List.mem_append] at h ⊢
      set rows := sqlEqRows table (termIndexValue mt j) (termsCreateQuery mt item)
      rcases ih (processTermRows d mt item i j rows visited).2 n h with hn | ⟨e, he, hid⟩
      · rcases processTermRows_visited_source d mt item i j rows visited n hn
          with hn2 | ⟨e, he, hid⟩
        · exact Or.inl hn2
        · exact Or.inr ⟨e, Or.inl he, hid⟩
      · exact Or.inr ⟨e, Or.inr he, hid⟩

/-- A row of an enabled dictionary contained in a sub-query's row list has its
id recorded by the time the row loop finishes. -/
theorem processTermRows_match_visited (d : List String) (mt : MatchType)
    (item : String) (i j : Nat) (row : TermRow) (hd : row.dictionary ∈ d) :
    ∀ (rows : List TermRow) (visited : List Nat), row ∈ rows →
      row.id ∈ (processTermRows d mt item i j rows visited).2 := by
  intro rows
  induction rows with
  | nil => intro visited h; simp at h
  | cons r rest ih =>
    intro visited hmem
    rcases List.mem_cons.mp hmem with heq | hmem
    · subst heq
      by_cases hv : row.id ∈ visited
      · by_cases hd2 : row.dictionary ∈ d
        · simp only [processTermRows, termsPredicate]
          simp [hd2, hv]
          exact processTermRows_visited_mono d mt item i j rest visited row.id hv
        · exact absurd hd hd2
      · simp only [processTermRows, termsPredicate]
        simp [hd, hv]
        exact processTermRows_visited_mono d mt item i j rest (row.id :: visited)
          row.id (by simp)
    · by_cases hd2 : r.dictionary ∈ d
      · by_cases hv : r.id ∈ visited
        · simp only [processTermRows, termsPredicate]
          simp [hd2, hv]
          exact ih visited hmem
        · simp only [processTermRows, termsPredicate]
          simp [hd2, hv]
          exact ih (r.id :: visited) hmem
      · simp only [processTermRows, termsPredicate]
        simp [hd2]
        exact ih visited hmem

/-- A row of an enabled dictionary observed by some processed sub-query has
its id recorded by the end of the call. -/
theorem findTermsBulkFrom_match_visited (table : List TermRow)
    (termList : List String) (d : List String) (mt : MatchType)
    (row : TermRow) (i j : Nat) (item : String)
    (hrow : row ∈ table) (hd : row.dictionary ∈ d)
    (hit : termList[i]? = some item)
    (hmatch : termIndexValue mt j row = termsCreateQuery mt item) :
    ∀ (order : List (Nat × Nat)) (visited : List Nat), (i, j) ∈ order →
      row.id ∈ (findTermsBulkFrom table termList d mt order visited).2 := by
  intro order
  induction order with
  | nil => intro visited h; simp at h
  | cons p rest ih =>
    obtain ⟨i0, j0⟩ := p
    intro visited hmem
    rcases List.mem_cons.mp hmem with heq | hmem2
    · have hi : i = i0 := congrArg Prod.fst heq
      have hj : j = j0 := congrArg Prod.snd heq
      subst hi
      subst hj
      simp only [findTermsBulkFrom, hit]
      have hrow2 : row ∈ sqlEqRows table (termIndexValue mt j)
          (termsCreateQuery mt item) :=
        List.mem_filter.mpr ⟨hrow, by simp [hmatch]⟩
      exact findTermsBulkFrom_visited_mono table termList d mt rest _ row.id
        (processTermRows_match_visited d mt item i j row hd _ visited hrow2)
    · cases hit0 : termList[i0]? with
      | none =>
        simp only [findTermsBulkFrom, hit0]
        exact ih visited hmem2
      | some item0 =>
        simp only [findTermsBulkFrom, hit0]
        exact ih _ hmem2

/-- In a list whose entries have pairwise distinct ids, an id that occurs
occurs in exactly one entry. -/
theorem countP_id_eq_one (n : Nat) :
    ∀ l : List TermEntry, l.Pairwise (fun a b => a.id ≠ b.id) →
      (∃ e ∈ l, e.id = n) → l.countP (fun e => e.id == n) = 1 := by
  intro l
  induction l with
  | nil => rintro _ ⟨e, he, _⟩; simp at he
  | cons e0 rest ih =>
    rintro hp ⟨e, he, hid⟩
    have hp2 := List.pairwise_cons.mp hp
    by_cases h0 : e0.id = n
    · have hzero : rest.countP (fun e => e.id == n) = 0 := by
        rw [List.countP_eq_zero]
        intro a ha
        simp only [beq_iff_eq]
        intro han
        exact hp2.1 a ha (by rw [h0, han])
      simp [List.countP_cons, h0, hzero]
    · rcases List.mem_cons.mp he with heq | he2
      · exact absurd (heq ▸ hid) h0
      · have := ih hp2.2 ⟨e, he2, hid⟩
        simp [List.countP_cons, h0, this]

/-- Splitting the sub-query order splits the call: the suffix resumes from the
prefix's visited set. -/
theorem findTermsBulkFrom_append (table : List TermRow) (termList : List String)
    (d : List String) (mt : MatchType) :
    ∀ (o1 o2 : List (Nat × Nat)) (visited : List Nat),
      findTermsBulkFrom table termList d mt (o1 ++ o2) visited =
        ((findTermsBulkFrom table termList d mt o1 visited).1 ++
          (findTermsBulkFrom table termList d mt o2
            (findTermsBulkFrom table termList d mt o1 visited).2).1,
         (findTermsBulkFrom table termList d mt o2
            (findTermsBulkFrom table termList d mt o1 visited).2).2) := by
  intro o1
  induction o1 with
  | nil => intro o2 visited; simp [findTermsBulkFrom]
  | cons p rest ih =>
    intro o2 visited
    obtain ⟨i, j⟩ := p
    cases hit : termList[i]? with
    | none =>
      simp only [List.cons_append, findTermsBulkFrom, hit]
      exact ih o2 visited
    | some item =>
      simp only [List.cons_append, findTermsBulkFrom, hit, List.append_eq]
      rw [ih]
      simp [List.append_assoc]

/-- Claim C4: for every call to `findTermsBulk`, the returned list contains at
most one entry per stored row id (pairwise-distinct ids, for every completion
order of the concurrently issued `(item, index)` sub-queries and for the
canonical order); a row of an enabled dictionary observed by at least one
processed sub-query is emitted exactly once (its id occurs in exactly one
returned entry); and the emission happens at the row's first observed match:
once some prefix of the sub-query order has emitted an id, the sub-queries
completing after that prefix contribute no further entry with that id. -/
theorem claim_C4_findTermsBulk_dedup (table : List TermRow) (termList : List String)
    (dictionaries : List String) (matchType : MatchType) :
    (∀ order : List (Nat × Nat),
      ((findTermsBulkFrom table termList dictionaries matchType order []).1).Pairwise
        (fun a b => a.id ≠ b.id)) ∧
    (findTermsBulk table termList dictionaries matchType).Pairwise
      (fun a b => a.id ≠ b.id) ∧
    (∀ (order : List (Nat × Nat)) (row : TermRow) (i j : Nat) (item : String),
      (i, j) ∈ order → termList[i]? = some item →
      termIndexValue matchType j row = termsCreateQuery matchType item →
      row ∈ table → row.dictionary ∈ dictionaries →
      ((findTermsBulkFrom table termList dictionaries matchType order []).1).countP
        (fun e => e.id == row.id) = 1) ∧
    (∀ (o1 o2 : List (Nat × Nat)) (n : Nat),
      (∃ e ∈ (findTermsBulkFrom table termList dictionaries matchType o1 []).1,
        e.id = n) →
      ((findTermsBulkFrom table termList dictionaries matchType (o1 ++ o2) []).1).filter
          (fun e => e.id == n) =
        ((findTermsBulkFrom table termList dictionaries matchType o1 []).1).filter
          (fun e => e.id == n)) := by
  refine ⟨?_, ?_, ?_, ?_⟩
  · intro order
    exact findTermsBulkFrom_pairwise table termList dictionaries matchType order []
  · exact findTermsBulkFrom_pairwise table termList dictionaries matchType
      (canonicalOrder termList.length 2) []
  · intro order row i j item hmem hit hmatch hrow hd
    apply countP_id_eq_one
    · exact findTermsBulkFrom_pairwise table termList dictionaries matchType order []
    · have hvis := findTermsBulkFrom_match_visited table termList dictionaries
        matchType row i j item hrow hd hit hmatch order [] hmem
      rcases findTermsBulkFrom_visited_source table termList dictionaries matchType
          order [] row.id hvis with hn | hex
      · simp at hn
      · exact hex
  · intro o1 o2 n hex
    rw [findTermsBulkFrom_append]
    simp only [List.filter_append]
    have hzero : ((findTermsBulkFrom table termList dictionaries matchType o2
        (findTermsBulkFrom table termList dictionaries matchType o1 []).2).1).filter
        (fun e => e.id == n) = [] := by
      rw [List.filter_eq_nil_iff]
      intro e he
      obtain ⟨e1, he1, hid1⟩ := hex
      have h1 := findTermsBulkFrom_emitted table termList dictionaries matchType
        o1 [] e1 he1
      have h2 := findTermsBulkFrom_emitted table termList dictionaries matchType
        o2 _ e he
      simp only [beq_iff_eq]
      intro hen
      exact h2.2 (by rw [hen, ← hid1]; exact h1.1)
    rw [hzero, List.append_nil]

/-- Witness for claim C4: one row hit by two identical input terms on both
processed sub-queries is returned exactly once, and the sub-queries after the
first observing prefix contribute nothing for its id. -/
theorem claim_C4_findTermsBulk_dedup_witness :
    ((findTermsBulkFrom [c4Row] ["ねこ", "ねこ"] ["dict"] MatchType.exact
        (canonicalOrder 2 2) []).1).countP (fun e => e.id == c4Row.id) = 1 ∧
    ((findTermsBulkFrom [c4Row] ["ねこ", "ねこ"] ["dict"] MatchType.exact
        ([(0, 0)] ++ [(0, 1), (1, 0), (1, 1)]) []).1).filter (fun e => e.id == 7) =
      ((findTermsBulkFrom [c4Row] ["ねこ", "ねこ"] ["dict"] MatchType.exact
        [(0, 0)] []).1).filter (fun e => e.id == 7) := by
  constructor
  · exact (claim_C4_findTermsBulk_dedup [c4Row] ["ねこ", "ねこ"] ["dict"]
      MatchType.exact).2.2.1 (canonicalOrder 2 2) c4Row 0 0 "ねこ"
      (by decide) rfl rfl (by decide) (by decide)
  · exact (claim_C4_findTermsBulk_dedup [c4Row] ["ねこ", "ねこ"] ["dict"]
      MatchType.exact).2.2.2 [(0, 0)] [(0, 1), (1, 0), (1, 1)] 7 (by decide)

/-- Claim C1: a `findTermsBulk(termList, dictionaries, 'suffix')` call should
return an entry for every stored row whose reading or expression ends with a
queried term, with matchType `suffix` (or `exact` on a verbatim match).  The
code builds the key by reversing the term's codepoints and appending `%`, but
then compares it against the reversed index with SQL `=` rather than a prefix
match, so the `%`-suffixed key never equals a stored reversed value: the store
below holds a row whose reading ends with (first call) and even equals (second
call) the queried term, its `readingReverse` being the reversal the schema
precomputes, yet both calls return no entries.  This contradicts the claim and
the code's own intent (appending the `%` wildcard is meaningful only under
prefix/LIKE matching, which the reverse indices exist to serve). -/
theorem claim_C1_suffix_lookup_returns_nothing :
    c1Row.reading = "この" ++ "ねこ" ∧
    ("ねこ".data).isSuffixOf c1Row.reading.data = true ∧
    c1Row.readingReverse = stringReverse c1Row.reading ∧
    findTermsBulk [c1Row] ["ねこ"] ["dict"] MatchType.suffixMatch = [] ∧
    findTermsBulk [c1Row] ["このねこ"] ["dict"] MatchType.suffixMatch = [] := by
  exact ⟨by decide, by decide, by decide, by decide, by decide⟩

/-- Claim C10, counterexample: the claim says a stored field that is absent
becomes the empty array, but `_createTerm` computes `definitionTags` from
`row.definitionTags || row.tags`, so an absent `definitionTags` with a
non-empty legacy `tags` field yields the split of `tags`, not `[]`. -/
theorem claim_C10_counterexample :
    c10Row.definitionTags = JsField.undef ∧
    (createTerm MatchSource.term MatchType.exact c10Row 0).definitionTags = ["n", "vs"] ∧
    ["n", "vs"] ≠ ([] : List String) := by
  exact ⟨rfl, by decide, by decide⟩

/-- Claim C10, amended: in every entry built by `_createTerm` (the single
constructor behind `findTermsBulk`, `findTermsExactBulk` and
`findTermsBySequenceBulk`), `termTags` and `rules` are the empty array when
the stored field is absent, a number, or the empty string, and the split on
single spaces of a non-empty string; `definitionTags` behaves the same except
that a falsy stored `definitionTags` falls back to the legacy `tags` field
(itself normalised the same way); and `sequence` equals the stored sequence
when that is a number and `-1` otherwise. -/
theorem claim_C10_createTerm_field_normalisation
    (ms : MatchSource) (mt : MatchType) (row : TermRow) (i : Nat) :
    ((row.termTags = JsField.undef ∨ (∃ n, row.termTags = JsField.num n) ∨
        row.termTags = JsField.str "") → (createTerm ms mt row i).termTags = []) ∧
    (∀ s, row.termTags = JsField.str s → 0 < s.length →
        (createTerm ms mt row i).termTags = splitOnSpace s) ∧
    ((row.rules = JsField.undef ∨ (∃ n, row.rules = JsField.num n) ∨
        row.rules = JsField.str "") → (createTerm ms mt row i).rules = []) ∧
    (∀ s, row.rules = JsField.str s → 0 < s.length →
        (createTerm ms mt row i).rules = splitOnSpace s) ∧
    (jsTruthy row.definitionTags = false →
        (createTerm ms mt row i).definitionTags = splitField row.tags) ∧
    (∀ s, row.definitionTags = JsField.str s → 0 < s.length →
        (createTerm ms mt row i).definitionTags = splitOnSpace s) ∧
    (∀ n, row.sequence = JsField.num n → (createTerm ms mt row i).sequence = n) ∧
    ((∀ n, row.sequence ≠ JsField.num n) → (createTerm ms mt row i).sequence = -1) := by
  refine ⟨?_, ?_, ?_, ?_, ?_, ?_, ?_, ?_⟩
  · rintro (h | ⟨n, h⟩ | h) <;> simp [createTerm, splitField, h]
  · intro s h hs
    simp [createTerm, splitField, h, hs]
  · rintro (h | ⟨n, h⟩ | h) <;> simp [createTerm, splitField, h]
  · intro s h hs
    simp [createTerm, splitField, h, hs]
  · intro h
    simp [createTerm, jsOr, h]
  · intro s h hs
    have hlen : s.length ≠ 0 := by omega
    simp [createTerm, jsOr, jsTruthy, h, splitField, hs, hlen]
  · intro n h
    simp [createTerm, h]
  · intro h
    cases hs : row.sequence with
    | undef => simp [createTerm, hs]
    | str s => simp [createTerm, hs]
    | num n => exact absurd hs (h n)

/-- Witness for the amended C10 theorem at a concrete row. -/
theorem claim_C10_createTerm_field_normalisation_witness :
    (createTerm MatchSource.term MatchType.exact c10WitnessRow 0).termTags = splitOnSpace "a b" ∧
    (createTerm MatchSource.term MatchType.exact c10WitnessRow 0).sequence = 5 := by
  refine ⟨?_, ?_⟩
  · exact (claim_C10_createTerm_field_normalisation MatchSource.term MatchType.exact
      c10WitnessRow 0).2.1 "a b" rfl (by decide)
  · exact (claim_C10_createTerm_field_normalisation MatchSource.term MatchType.exact
      c10WitnessRow 0).2.2.2.2.2.2.1 5 rfl


/-- `jsMapGet` over key-tagged rows returns the last row carrying the key. -/
theorem jsMapGet_map_eq_getLast {Row : Type} (getIx : Row → String) (q : String) :
    ∀ rows : List Row,
      jsMapGet (rows.map (fun r => (getIx r, r))) q =
        (rows.filter (fun r => getIx r == q)).getLast? := by
  intro rows
  induction rows with
  | nil => simp [jsMapGet]
  | cons r rest ih =>
    simp only [List.map_cons, jsMapGet, ih, List.filter_cons]
    by_cases hk : (getIx r == q) = true
    · simp only [hk, if_true]
      cases hF : (rest.filter (fun x => getIx x == q)) with
      | nil => simp
      | cons f fs =>
        cases hL : (f :: fs).getLast? with
        | none => simp at hL
        | some v => simp [hL, List.getLast?_cons_cons]
    · simp only [hk, if_false, Bool.false_eq_true]
      cases hF : (rest.filter (fun x => getIx x == q)) with
      | nil => simp [hk]
      | cons f fs =>
        cases hL : (f :: fs).getLast? with
        | none => simp at hL
        | some v => simp [hL, hk]

/-- Filtering the IN-list rows down to one key equals filtering the table for
that key, when the key is among the IN-list queries. -/
theorem filter_inlist_collapse {Row : Type} (getIx : Row → String)
    (queries : List String) (q : String) (hq : q ∈ queries) (table : List Row) :
    (table.filter (fun r => queries.contains (getIx r))).filter
        (fun r => getIx r == q) =
      table.filter (fun r => getIx r == q) := by
  induction table with
  | nil => rfl
  | cons r rest ih =>
    by_cases hin : (queries.contains (getIx r)) = true
    · rw [List.filter_cons, if_pos hin, List.filter_cons, List.filter_cons]
      by_cases hk : (getIx r == q) = true
      · rw [if_pos hk, if_pos hk, ih]
      · rw [if_neg hk, if_neg hk, ih]
    · have hk : ¬((getIx r == q) = true) := by
        intro hk
        have heq : getIx r = q := eq_of_beq hk
        rw [heq] at hin
        exact hin (by simpa [List.elem_iff] using hq)
      rw [List.filter_cons, if_neg hin, List.filter_cons, if_neg hk, ih]

/-- Claim C2, counterexample: the claim says that when several stored rows
share the same index key, the first matching row in storage wins; but the
key→row map `findFirstBulk` builds lets later rows overwrite earlier ones, so
with two stored rows sharing key `"k"` the returned slot is the second row,
not the first. -/
theorem claim_C2_counterexample :
    findTagMetaBulk [c2Row1, c2Row2] [{ query := "k", dictionary := "d" }] =
      [some c2Row2] ∧
    c2Row1.name = "k" ∧ c2Row2.name = "k" ∧
    (some c2Row2 : Option TagRow) ≠ some c2Row1 := by
  exact ⟨by decide, rfl, rfl, by decide⟩

/-- Claim C2, amended: `findFirstBulk` returns exactly one slot per input item,
in input order; a slot is `undefined` when no stored row's index field equals
the item's built key or the predicate rejects the resolved row; and when
several stored rows share the same index key, the last matching row in the
query's scan order wins (not the first). -/
theorem claim_C2_findFirstBulk_slots {Row Item : Type} (table : List Row)
    (getIx : Row → String) (items : List Item) (createQuery : Item → String)
    (predicate : Row → Item → Bool) :
    (findFirstBulk table getIx items createQuery predicate).length = items.length ∧
    (∀ (i : Nat) (item : Item), items[i]? = some item →
      (findFirstBulk table getIx items createQuery predicate)[i]? = some (
        match (table.filter (fun r => getIx r == createQuery item)).getLast? with
        | some row => if predicate row item then some row else none
        | none => none)) := by
  constructor
  · by_cases h : items.isEmpty
    · rw [findFirstBulk, if_pos h]
      rw [List.isEmpty_iff] at h
      simp [h]
    · rw [findFirstBulk, if_neg h]
      simp
  · intro i item hi
    have hne : items.isEmpty = false := by
      cases items with
      | nil => simp at hi
      | cons a l => rfl
    simp only [findFirstBulk, hne, Bool.false_eq_true, if_false,
      List.getElem?_map, hi, Option.map_some']
    congr 1
    rw [jsMapGet_map_eq_getLast, filter_inlist_collapse]
    exact List.mem_map.mpr ⟨item, List.getElem?_mem hi, rfl⟩

/-- Witness for the amended C2 theorem at a concrete store and item list. -/
theorem claim_C2_findFirstBulk_slots_witness :
    (findTagMetaBulk [c2Row1, c2Row2] [{ query := "k", dictionary := "d" }]).length = 1 ∧
    (findTagMetaBulk [c2Row1, c2Row2] [{ query := "k", dictionary := "d" }])[0]? =
      some (some c2Row2) := by
  constructor
  · exact (claim_C2_findFirstBulk_slots [c2Row1, c2Row2] (fun (r : TagRow) => r.name)
      ([{ query := "k", dictionary := "d" }] : List DictionaryAndQueryRequest)
      (fun it => it.query) (fun row it => row.dictionary == it.dictionary)).1
  · have h := (claim_C2_findFirstBulk_slots [c2Row1, c2Row2] (fun (r : TagRow) => r.name)
      ([{ query := "k", dictionary := "d" }] : List DictionaryAndQueryRequest)
      (fun it => it.query) (fun row it => row.dictionary == it.dictionary)).2 0
      { query := "k", dictionary := "d" } rfl
    exact h.trans (by decide)


/-- No row matching the key survives a `bulkDelete` whose `filterKeys`
callback returns the key snapshot unchanged. -/
theorem bulkDelete_id_filterKeys_no_match {Row : Type} (rows : List Row)
    (rowId : Row → Nat) (getKey : Row → String) (query : String) :
    ∀ r ∈ (bulkDelete rows rowId getKey true query (some (fun ks => ks))).1,
      getKey r ≠ query := by
  intro r hr hq
  by_cases ht : (rows.filter (fun r => getKey r == query)).length = 0
  · rw [List.length_eq_zero] at ht
    have : r ∈ rows.filter (fun r => getKey r == query) := by
      simp only [bulkDelete, ht, if_pos, List.length_nil] at hr
      simp [List.mem_filter, hq]
      exact hr
    simp [ht] at this
  · have hne : ¬((rows.filter (fun r => getKey r == query)).map rowId).isEmpty = true := by
      simp only [List.isEmpty_iff, List.map_eq_nil_iff]
      intro h0
      exact ht (by simp [h0])
    simp only [bulkDelete, Bool.not_true, Bool.false_eq_true, if_false, ht, hne] at hr
    have hmem := (List.mem_filter.mp hr).2
    have : rowId r ∈ (rows.filter (fun r => getKey r == query)).map rowId := by
      refine List.mem_map.mpr ⟨r, ?_, rfl⟩
      exact List.mem_filter.mpr ⟨(List.mem_filter.mp hr).1, by simp [hq]⟩
    simp [List.elem_iff, this] at hmem

/-- Claim C3: after `deleteDictionary(name)` completes, no row of any of the
six content tables has `dictionary == name`, no manifest row has
`title == name` (even when only some content tables had matching rows, since
each table is processed independently), and the call is exactly group 2
(manifest deletion) run after group 1 (content deletion) completes. -/
theorem claim_C3_deleteDictionary (s : Store) (name : String) :
    (∀ r ∈ (deleteDictionary s name).kanji, r.dictionary ≠ name) ∧
    (∀ r ∈ (deleteDictionary s name).kanjiMeta, r.dictionary ≠ name) ∧
    (∀ r ∈ (deleteDictionary s name).terms, r.dictionary ≠ name) ∧
    (∀ r ∈ (deleteDictionary s name).termMeta, r.dictionary ≠ name) ∧
    (∀ r ∈ (deleteDictionary s name).tagMeta, r.dictionary ≠ name) ∧
    (∀ r ∈ (deleteDictionary s name).media, r.dictionary ≠ name) ∧
    (∀ r ∈ (deleteDictionary s name).dictionaries, r.title ≠ name) ∧
    deleteDictionary s name =
      deleteDictionaryGroup2 (deleteDictionaryGroup1 s name) name := by
  refine ⟨?_, ?_, ?_, ?_, ?_, ?_, ?_, rfl⟩
  · exact fun r hr => bulkDelete_id_filterKeys_no_match s.kanji _ _ name r hr
  · exact fun r hr => bulkDelete_id_filterKeys_no_match s.kanjiMeta _ _ name r hr
  · exact fun r hr => bulkDelete_id_filterKeys_no_match s.terms _ _ name r hr
  · exact fun r hr => bulkDelete_id_filterKeys_no_match s.termMeta _ _ name r hr
  · exact fun r hr => bulkDelete_id_filterKeys_no_match s.tagMeta _ _ name r hr
  · exact fun r hr => bulkDelete_id_filterKeys_no_match s.media _ _ name r hr
  · exact fun r hr => bulkDelete_id_filterKeys_no_match
      (deleteDictionaryGroup1 s name).dictionaries _ _ name r hr

/-- Witness for claim C3 at a concrete store. -/
theorem claim_C3_deleteDictionary_witness :
    (⟨2, "Bar"⟩ : CRow) ∈ (deleteDictionary c3Store "Foo").kanji ∧
    (⟨2, "Bar"⟩ : CRow).dictionary ≠ "Foo" :=
  ⟨by decide, (claim_C3_deleteDictionary c3Store "Foo").1 ⟨2, "Bar"⟩ (by decide)⟩

/-- Claim C5, counterexample: with a narrowing `filterKeys` (permitted by the
claim's quantification over every call), the single `onProgress` invocation on
success reports `completed = 0` while `total = 1`, so the final invocation
does not satisfy `completed == total`. -/
theorem claim_C5_counterexample :
    (bulkDelete [c5Row] (fun r => r.id) (fun r => r.dictionary) true "Foo"
      (some (fun _ => []))).2 = [(0, 1)] ∧
    (0 : Nat) ≠ 1 ∧
    (bulkDelete [c5Row] (fun r => r.id) (fun r => r.dictionary) true "Foo"
      (some (fun _ => []))).1 = [c5Row] := by
  exact ⟨by decide, by decide, by decide⟩

/-- Claim C5, amended: with a usable index and a progress callback,
`bulkDelete` invokes `onProgress` exactly once (hence at least once); when
zero rows match the key it reports `(0, 0)` and deletes nothing; the final
invocation has `completed == total` when `filterKeys` is null or returns the
key snapshot unchanged (as `deleteDictionary` does); in general the single
invocation is `(|filterKeys(keys)|, total)`, which can fall short of `total`
for a narrowing `filterKeys`. -/
theorem claim_C5_bulkDelete_progress {Row : Type} (rows : List Row)
    (rowId : Row → Nat) (getKey : Row → String) (query : String)
    (filterKeys : Option (List Nat → List Nat)) :
    ((bulkDelete rows rowId getKey true query filterKeys).2).length = 1 ∧
    ((rows.filter (fun r => getKey r == query)).length = 0 →
      bulkDelete rows rowId getKey true query filterKeys = (rows, [(0, 0)])) ∧
    (filterKeys = none →
      (bulkDelete rows rowId getKey true query filterKeys).2 =
        [((rows.filter (fun r => getKey r == query)).length,
          (rows.filter (fun r => getKey r == query)).length)]) ∧
    (filterKeys = some (fun ks => ks) →
      (bulkDelete rows rowId getKey true query filterKeys).2 =
        [((rows.filter (fun r => getKey r == query)).length,
          (rows.filter (fun r => getKey r == query)).length)]) := by
  by_cases ht : (rows.filter (fun r => getKey r == query)).length = 0
  · refine ⟨?_, ?_, ?_, ?_⟩
    · simp [bulkDelete, ht]
    · intro _
      simp [bulkDelete, ht]
    · intro h
      subst h
      simp [bulkDelete, ht]
    · intro h
      subst h
      simp [bulkDelete, ht]
  · have hne : ¬((rows.filter (fun r => getKey r == query)).map rowId).isEmpty = true := by
      simp only [List.isEmpty_iff, List.map_eq_nil_iff]
      intro h0
      exact ht (by simp [h0])
    refine ⟨?_, ?_, ?_, ?_⟩
    · cases filterKeys with
      | none => simp [bulkDelete, ht]
      | some f =>
        by_cases hf : (f ((rows.filter (fun r => getKey r == query)).map rowId)).isEmpty = true
        · simp [bulkDelete, ht, hf]
        · simp [bulkDelete, ht, hf]
    · intro h
      exact absurd h ht
    · intro h
      subst h
      simp [bulkDelete, ht]
    · intro h
      subst h
      simp only [bulkDelete, Bool.not_true, Bool.false_eq_true, if_false, ht, hne]
      simp [List.length_map]

/-- Witness for the amended C5 theorem at a concrete call without
`filterKeys`. -/
theorem claim_C5_bulkDelete_progress_witness :
    (bulkDelete [c5Row] (fun r => r.id) (fun r => r.dictionary) true "Foo" none).2 =
      [(1, 1)] := by
  have h := (claim_C5_bulkDelete_progress [c5Row] (fun r => r.id)
    (fun r => r.dictionary) "Foo" none).2.2.1 rfl
  exact h.trans (by decide)


/-- Claim C7, counterexample: a kanjiMeta row whose mode is outside
`{freq, pitch, ipa}` is not a hard error — `findKanjiMetaBulk` returns it,
mode and all, because `_createKanjiMeta` has no mode switch.  (Only
`_createTermMeta` throws.) -/
theorem claim_C7_counterexample :
    findKanjiMetaBulk [c7Row] ["火"] ["d"] =
      [⟨0, "火", "bogus", "x", "d"⟩] ∧
    c7Row.mode ∉ (["freq", "pitch", "ipa"] : List String) := by
  exact ⟨by decide, by decide⟩

/-- A bad-mode row accepted by the predicate makes `processTermMetaRows`
throw. -/
theorem processTermMetaRows_error (dicts : List String) (i : Nat)
    (row : TermMetaRow) (hd : row.dictionary ∈ dicts)
    (hm : row.mode ∉ (["freq", "pitch", "ipa"] : List String)) :
    ∀ rows : List TermMetaRow, row ∈ rows →
      ∃ e, processTermMetaRows dicts i rows = .error e := by
  intro rows
  induction rows with
  | nil => intro h; simp at h
  | cons r rest ih =>
    intro hmem
    rcases List.mem_cons.mp hmem with heq | hmem
    · subst heq
      have herr : ∃ e, createTermMeta row i = .error e := by
        simp only [createTermMeta]
        split
        · rename_i hmode; exact absurd (by simp [hmode]) hm
        · rename_i hmode; exact absurd (by simp [hmode]) hm
        · rename_i hmode; exact absurd (by simp [hmode]) hm
        · exact ⟨_, rfl⟩
      obtain ⟨e, he⟩ := herr
      exact ⟨e, by simp [processTermMetaRows, hd, he]⟩
    · by_cases hc : r.dictionary ∈ dicts
      · cases hcr : createTermMeta r i with
        | error e => exact ⟨e, by simp [processTermMetaRows, hc, hcr]⟩
        | ok m =>
          obtain ⟨e, he⟩ := ih hmem
          exact ⟨e, by simp [processTermMetaRows, hc, hcr, he]⟩
      · obtain ⟨e, he⟩ := ih hmem
        exact ⟨e, by simp [processTermMetaRows, hc, he]⟩

/-- A processed bad-mode row makes the whole `findTermMetaBulk` call throw. -/
theorem findTermMetaBulkFrom_error (table : List TermMetaRow)
    (dicts : List String) (row : TermMetaRow) (hrow : row ∈ table)
    (hd : row.dictionary ∈ dicts)
    (hm : row.mode ∉ (["freq", "pitch", "ipa"] : List String)) :
    ∀ (termList : List String) (i0 : Nat), row.expression ∈ termList →
      ∃ e, findTermMetaBulkFrom table dicts i0 termList = .error e := by
  intro termList
  induction termList with
  | nil => intro i0 h; simp at h
  | cons item rest ih =>
    intro i0 hmem
    rcases List.mem_cons.mp hmem with heq | hmem
    · have hrow2 : row ∈ table.filter (fun r => r.expression == item) :=
        List.mem_filter.mpr ⟨hrow, by simp [heq]⟩
      obtain ⟨e, he⟩ := processTermMetaRows_error dicts i0 row hd hm _ hrow2
      exact ⟨e, by simp [findTermMetaBulkFrom, he]⟩
    · cases hp : processTermMetaRows dicts i0
          (table.filter (fun r => r.expression == item)) with
      | error e => exact ⟨e, by simp [findTermMetaBulkFrom, hp]⟩
      | ok ms =>
        obtain ⟨e, he⟩ := ih (i0 + 1) hmem
        exact ⟨e, by simp [findTermMetaBulkFrom, hp, he]⟩

/-- Every entry of `processKanjiMetaRows` is a row passed through
`createKanjiMeta` unchanged. -/
theorem processKanjiMetaRows_mem (dicts : List String) (i : Nat) :
    ∀ rows : List KanjiMetaRow, ∀ m ∈ processKanjiMetaRows dicts i rows,
      ∃ row ∈ rows, row.dictionary ∈ dicts ∧ m = createKanjiMeta row i := by
  intro rows
  induction rows with
  | nil => intro m hm; simp [processKanjiMetaRows] at hm
  | cons r rest ih =>
    intro m hm
    by_cases hc : dicts.contains r.dictionary = true
    · simp only [processKanjiMetaRows, hc, if_true, List.mem_cons] at hm
      rcases hm with hm | hm
      · exact ⟨r, List.mem_cons_self r rest, by simpa [List.elem_iff] using hc, hm⟩
      · obtain ⟨row, h1, h2, h3⟩ := ih m hm
        exact ⟨row, List.mem_cons_of_mem _ h1, h2, h3⟩
    · simp only [processKanjiMetaRows, hc, Bool.false_eq_true, if_false] at hm
      obtain ⟨row, h1, h2, h3⟩ := ih m hm
      exact ⟨row, List.mem_cons_of_mem _ h1, h2, h3⟩

/-- Claim C7, amended: for termMeta rows the mode set is closed —
`_createTermMeta` throws on any mode outside `{freq, pitch, ipa}` (rejecting
the whole `findTermMetaBulk` call when such a row is processed) and accepts
exactly those three; but kanjiMeta rows are NOT validated: `findKanjiMetaBulk`
never throws and passes every processed row through with its mode unchanged. -/
theorem claim_C7_meta_mode_validation :
    (∀ (row : TermMetaRow) (i : Nat),
      (row.mode ∉ (["freq", "pitch", "ipa"] : List String) →
        ∃ e, createTermMeta row i = .error e) ∧
      (row.mode ∈ (["freq", "pitch", "ipa"] : List String) →
        createTermMeta row i =
          .ok ⟨i, row.expression, row.mode, row.data, row.dictionary⟩)) ∧
    (∀ (table : List TermMetaRow) (dicts : List String) (termList : List String)
      (row : TermMetaRow), row ∈ table → row.expression ∈ termList →
      row.dictionary ∈ dicts →
      row.mode ∉ (["freq", "pitch", "ipa"] : List String) →
      ∃ e, findTermMetaBulk table termList dicts = .error e) ∧
    (∀ (table : List KanjiMetaRow) (kanjiList : List String) (dicts : List String),
      ∀ m ∈ findKanjiMetaBulk table kanjiList dicts,
        ∃ row ∈ table, row.dictionary ∈ dicts ∧ m.mode = row.mode) := by
  refine ⟨?_, ?_, ?_⟩
  · intro row i
    constructor
    · intro hm
      simp only [createTermMeta]
      split
      · rename_i hmode; exact absurd (by simp [hmode]) hm
      · rename_i hmode; exact absurd (by simp [hmode]) hm
      · rename_i hmode; exact absurd (by simp [hmode]) hm
      · exact ⟨_, rfl⟩
    · intro hm
      simp only [List.mem_cons, List.not_mem_nil, or_false] at hm
      rcases hm with hm | hm | hm
      · simp [createTermMeta, hm]
      · simp [createTermMeta, hm]
      · simp [createTermMeta, hm]
  · intro table dicts termList row hrow hexp hd hm
    exact findTermMetaBulkFrom_error table dicts row hrow hd hm termList 0 hexp
  · intro table kanjiList dicts
    have main : ∀ (ks : List String) (i0 : Nat),
        ∀ m ∈ findKanjiMetaBulkFrom table dicts i0 ks,
          ∃ row ∈ table, row.dictionary ∈ dicts ∧ m.mode = row.mode := by
      intro ks
      induction ks with
      | nil => intro i0 m hm; simp [findKanjiMetaBulkFrom] at hm
      | cons item rest ih =>
        intro i0 m hm
        rw [findKanjiMetaBulkFrom] at hm
        rcases List.mem_append.mp hm with hm | hm
        · obtain ⟨row, h1, h2, h3⟩ := processKanjiMetaRows_mem dicts i0 _ m hm
          exact ⟨row, (List.mem_filter.mp h1).1, h2, by rw [h3]; rfl⟩
        · exact ih (i0 + 1) m hm
    exact main kanjiList 0

/-- Witness for the amended C7 theorem at concrete bad-mode rows. -/
theorem claim_C7_meta_mode_validation_witness :
    (∃ e, createTermMeta ⟨1, "d", "x", "bogus", "y"⟩ 0 = Except.error e) ∧
    (∃ e, findTermMetaBulk [⟨1, "d", "x", "bogus", "y"⟩] ["x"] ["d"] =
      Except.error e) := by
  constructor
  · exact (claim_C7_meta_mode_validation.1 ⟨1, "d", "x", "bogus", "y"⟩ 0).1 (by decide)
  · exact claim_C7_meta_mode_validation.2.1 [⟨1, "d", "x", "bogus", "y"⟩] ["d"] ["x"]
      ⟨1, "d", "x", "bogus", "y"⟩ (by decide) (by decide) (by decide) (by decide)


/-- Claim C9: on an open store, `find` never throws — it returns the default
(`none` here) when no row's index field equals the key or when the matching
row (the first in scan order, via `LIMIT 1`) fails the predicate; and
`findFirstBulk` yields `undefined` (never an exception, being a total slot
computation) for each item with no matching row. -/
theorem claim_C9_find_missing_returns_default {Row PredArg Item : Type}
    (table : List Row) (getIx : Row → String) (indexOk : Bool) (query : DBQuery)
    (predicate : Option (Row → PredArg → Bool)) (arg : PredArg) :
    (∃ v, find true table getIx indexOk query predicate arg = .ok v) ∧
    ((∀ r ∈ table, getIx r ≠ queryValue query) →
      find true table getIx indexOk query predicate arg = .ok none) ∧
    (∀ row p, table.find? (fun r => getIx r == queryValue query) = some row →
      predicate = some p → p row arg = false →
      find true table getIx indexOk query predicate arg = .ok none) ∧
    (∀ (table2 : List Row) (items : List Item) (createQuery : Item → String)
      (pred2 : Row → Item → Bool) (i : Nat) (item : Item),
      items[i]? = some item → (∀ r ∈ table2, getIx r ≠ createQuery item) →
      (findFirstBulk table2 getIx items createQuery pred2)[i]? = some none) := by
  refine ⟨?_, ?_, ?_, ?_⟩
  · by_cases hio : indexOk
    · cases hf : table.find? (fun r => getIx r == queryValue query) with
      | none => exact ⟨none, by simp [find, hio, hf]⟩
      | some row =>
        cases predicate with
        | none => exact ⟨some row, by simp [find, hio, hf]⟩
        | some p =>
          exact ⟨if p row arg then some row else none, by simp [find, hio, hf]⟩
    · exact ⟨none, by simp [find, hio]⟩
  · intro h
    have hf : table.find? (fun r => getIx r == queryValue query) = none :=
      List.find?_eq_none.mpr (fun r hr => by simp [h r hr])
    by_cases hio : indexOk
    · simp [find, hio, hf]
    · simp [find, hio]
  · intro row p hfind hp hfalse
    by_cases hio : indexOk
    · subst hp
      simp [find, hio, hfind, hfalse]
    · simp [find, hio]
  · intro table2 items createQuery pred2 i item hi hno
    have hne : items.isEmpty = false := by
      cases items with
      | nil => simp at hi
      | cons a l => rfl
    simp only [findFirstBulk, hne, Bool.false_eq_true, if_false,
      List.getElem?_map, hi, Option.map_some']
    congr 1
    rw [jsMapGet_map_eq_getLast, filter_inlist_collapse getIx _ _
      (List.mem_map.mpr ⟨item, List.getElem?_mem hi, rfl⟩)]
    have hnil : table2.filter (fun r => getIx r == createQuery item) = [] := by
      rw [List.filter_eq_nil_iff]
      intro r hr
      simp [hno r hr]
    rw [hnil]
    rfl

/-- Witness for claim C9 at a concrete store and missing key. -/
theorem claim_C9_find_missing_returns_default_witness :
    find true [c2Row1] (fun (r : TagRow) => r.name) true (DBQuery.plain "zzz")
      (none : Option (TagRow → Unit → Bool)) () = Except.ok none ∧
    (findTagMetaBulk [c2Row1] [{ query := "zzz", dictionary := "d" }])[0]? =
      some none := by
  constructor
  · exact (@claim_C9_find_missing_returns_default TagRow Unit DictionaryAndQueryRequest
      [c2Row1] (fun r => r.name) true (DBQuery.plain "zzz") none ()).2.1 (by decide)
  · exact (@claim_C9_find_missing_returns_default TagRow Unit DictionaryAndQueryRequest
      [] (fun r => r.name) true (DBQuery.plain "zzz") none ()).2.2.2 [c2Row1]
      [{ query := "zzz", dictionary := "d" }] (fun it => it.query)
      (fun row it => row.dictionary == it.dictionary) 0
      { query := "zzz", dictionary := "d" } rfl (by decide)


/-- Index creation keeps existing indices. -/
theorem createIndices_mono (i : String) :
    ∀ (decl : List String) (ts : TableState), i ∈ ts.indices →
      i ∈ (createIndices ts decl).1.indices := by
  intro decl
  induction decl with
  | nil => intro ts h; exact h
  | cons d rest ih =>
    intro ts h
    by_cases hc : d ∈ ts.indices
    · simpa [createIndices, hc] using ih ts h
    · simpa [createIndices, hc] using ih ⟨ts.indices ++ [d]⟩ (by simp [h])

/-- Index creation creates every declared index. -/
theorem createIndices_all (i : String) :
    ∀ (decl : List String) (ts : TableState), i ∈ decl →
      i ∈ (createIndices ts decl).1.indices := by
  intro decl
  induction decl with
  | nil => intro ts h; simp at h
  | cons d rest ih =>
    intro ts h
    rcases List.mem_cons.mp h with h | h
    · subst h
      by_cases hc : i ∈ ts.indices
      · simpa [createIndices, hc] using createIndices_mono i rest ts hc
      · simpa [createIndices, hc] using
          createIndices_mono i rest ⟨ts.indices ++ [i]⟩ (by simp)
    · by_cases hc : d ∈ ts.indices
      · simpa [createIndices, hc] using ih ts h
      · simpa [createIndices, hc] using ih ⟨ts.indices ++ [d]⟩ h

/-- `CREATE INDEX IF NOT EXISTS` is a no-op when every declared index already
exists. -/
theorem createIndices_noop :
    ∀ (decl : List String) (ts : TableState), (∀ i ∈ decl, i ∈ ts.indices) →
      createIndices ts decl = (ts, 0) := by
  intro decl
  induction decl with
  | nil => intro ts _; rfl
  | cons d rest ih =>
    intro ts h
    have hc : d ∈ ts.indices := h d (by simp)
    have ihh := ih ts (fun i hi => h i (by simp [hi]))
    simp [createIndices, hc, ihh]

/-- Updating a key that is present makes lookup return the new state. -/
theorem lookupTable_updateAssoc_self (k : String) (v : TableState) :
    ∀ l : List (String × TableState), (∃ v0, lookupTable l k = some v0) →
      lookupTable (updateAssoc l k v) k = some v := by
  intro l
  induction l with
  | nil => rintro ⟨v0, h⟩; simp [lookupTable] at h
  | cons p rest ih =>
    rintro ⟨v0, h⟩
    obtain ⟨k1, v1⟩ := p
    by_cases hk : k1 = k
    · subst hk
      simp [updateAssoc, lookupTable]
    · simp only [lookupTable, hk, if_false] at h
      simpa [updateAssoc, lookupTable, hk] using ih ⟨v0, h⟩

/-- Updating a key that is absent changes nothing. -/
theorem updateAssoc_of_lookup_none (k : String) (v : TableState) :
    ∀ l : List (String × TableState), lookupTable l k = none →
      updateAssoc l k v = l := by
  intro l
  induction l with
  | nil => intro _; rfl
  | cons p rest ih =>
    intro h
    obtain ⟨k1, v1⟩ := p
    by_cases hk : k1 = k
    · simp [lookupTable, hk] at h
    · simp only [lookupTable, hk, if_false] at h
      simp [updateAssoc, hk, ih h]
      exact ih h

/-- Re-updating a key with the same state is a no-op. -/
theorem updateAssoc_idem (k : String) (v : TableState) :
    ∀ l : List (String × TableState),
      updateAssoc (updateAssoc l k v) k v = updateAssoc l k v := by
  intro l
  induction l with
  | nil => rfl
  | cons p rest ih =>
    obtain ⟨k1, v1⟩ := p
    by_cases hk : k1 = k
    · subst hk
      simpa [updateAssoc] using ih
    · simpa [updateAssoc, hk] using ih

/-- Lookup finds the appended singleton when the key was absent. -/
theorem lookupTable_append_singleton (k : String) (v : TableState) :
    ∀ l : List (String × TableState), lookupTable l k = none →
      lookupTable (l ++ [(k, v)]) k = some v := by
  intro l
  induction l with
  | nil => intro _; simp [lookupTable]
  | cons p rest ih =>
    intro h
    obtain ⟨k1, v1⟩ := p
    by_cases hk : k1 = k
    · simp [lookupTable, hk] at h
    · simp only [lookupTable, hk, if_false] at h
      simpa [lookupTable, hk] using ih h


/-- `_createOrUpdateTable` is idempotent: a second run with the same
declaration performs zero schema changes and leaves the state unchanged. -/
theorem createOrUpdateTable_idem (st : SchemaState) (name : String)
    (tdef : StoreDefinition) :
    createOrUpdateTable (createOrUpdateTable st name tdef).1 name tdef =
      ((createOrUpdateTable st name tdef).1, 0) := by
  cases hl : lookupTable st.tables name with
  | some ts =>
    have hnoop := createIndices_noop tdef.indices (createIndices ts tdef.indices).1
      (fun i hi => createIndices_all i tdef.indices ts hi)
    have hlook : lookupTable
        (updateAssoc st.tables name (createIndices ts tdef.indices).1) name =
        some (createIndices ts tdef.indices).1 :=
      lookupTable_updateAssoc_self name _ st.tables ⟨ts, hl⟩
    simp only [createOrUpdateTable, hl, hlook, hnoop]
    rw [updateAssoc_idem]
  | none =>
    have hnoop := createIndices_noop tdef.indices
      (createIndices ⟨[]⟩ tdef.indices).1
      (fun i hi => createIndices_all i tdef.indices ⟨[]⟩ hi)
    have hlook := lookupTable_append_singleton name
      (createIndices ⟨[]⟩ tdef.indices).1 st.tables hl
    simp only [createOrUpdateTable, hl, hlook, hnoop]
    have hupd : updateAssoc
        (st.tables ++ [(name, (createIndices ⟨[]⟩ tdef.indices).1)]) name
        (createIndices ⟨[]⟩ tdef.indices).1 =
        st.tables ++ [(name, (createIndices ⟨[]⟩ tdef.indices).1)] := by
      simp only [updateAssoc, List.map_append]
      rw [show List.map (fun p => if p.1 = name
          then (name, (createIndices ⟨[]⟩ tdef.indices).1) else p) st.tables =
          st.tables from updateAssoc_of_lookup_none name _ st.tables hl]
      simp
    rw [hupd]


/-- Applying an entry persists that entry's version. -/
theorem applyMigrationEntry_version (st : SchemaState) (e : StructureDefinition) :
    (applyMigrationEntry st e).1.userVersion = e.version := rfl

/-- The migration loop applies exactly the entries selected by
`version > currentVersion && version <= targetVersion`. -/
theorem migrationFold_eq_applyEntries (cur target : Nat) :
    ∀ (L : List StructureDefinition) (st : SchemaState),
      migrationFold cur target st L =
        applyEntries st (L.filter
          (fun e => decide (cur < e.version ∧ e.version ≤ target))) := by
  intro L
  induction L with
  | nil => intro st; rfl
  | cons e rest ih =>
    intro st
    by_cases h : cur < e.version ∧ e.version ≤ target
    · simp only [migrationFold, if_pos h, List.filter_cons, decide_eq_true h,
        if_true, applyEntries]
      rw [ih]
    · simp only [migrationFold, if_neg h, List.filter_cons]
      rw [ih]
      congr 1
      simp [h]

/-- The migration loop never lowers the persisted version below a bound kept
by every entry and the current state. -/
theorem migrationFold_version_lb (cur target v : Nat) :
    ∀ (L : List StructureDefinition) (st : SchemaState),
      (∀ e ∈ L, v ≤ e.version) → v ≤ st.userVersion →
      v ≤ (migrationFold cur target st L).1.userVersion := by
  intro L
  induction L with
  | nil => intro st _ h; exact h
  | cons e rest ih =>
    intro st hall hst
    by_cases h : cur < e.version ∧ e.version ≤ target
    · simp only [migrationFold, if_pos h]
      exact ih _ (fun x hx => hall x (by simp [hx]))
        (by rw [applyMigrationEntry_version]; exact hall e (by simp))
    · simp only [migrationFold, if_neg h]
      exact ih st (fun x hx => hall x (by simp [hx])) hst

/-- On a version-sorted entry list, every entry the loop applies ends up with
its version at or below the finally persisted version. -/
theorem migrationFold_final_ge (cur target : Nat) :
    ∀ (L : List StructureDefinition) (st : SchemaState),
      L.Sorted (fun a b => a.version ≤ b.version) →
      ∀ e ∈ L, cur < e.version ∧ e.version ≤ target →
        e.version ≤ (migrationFold cur target st L).1.userVersion := by
  intro L
  induction L with
  | nil => intro st _ e he; simp at he
  | cons e0 rest ih =>
    intro st hsort e he hq
    have hsort2 := List.sorted_cons.mp hsort
    rcases List.mem_cons.mp he with heq | he
    · subst heq
      simp only [migrationFold, if_pos hq]
      exact migrationFold_version_lb cur target e.version rest _
        (fun x hx => hsort2.1 x hx)
        (by rw [applyMigrationEntry_version])
    · by_cases h : cur < e0.version ∧ e0.version ≤ target
      · simp only [migrationFold, if_pos h]
        exact ih _ hsort2.2 e he hq
      · simp only [migrationFold, if_neg h]
        exact ih st hsort2.2 e he hq

/-- The finally persisted version is either the initial one or the version of
some applied entry. -/
theorem migrationFold_version_source (cur target : Nat) :
    ∀ (L : List StructureDefinition) (st : SchemaState),
      (migrationFold cur target st L).1.userVersion = st.userVersion ∨
      ∃ e ∈ L, (cur < e.version ∧ e.version ≤ target) ∧
        (migrationFold cur target st L).1.userVersion = e.version := by
  intro L
  induction L with
  | nil => intro st; exact Or.inl rfl
  | cons e0 rest ih =>
    intro st
    by_cases h : cur < e0.version ∧ e0.version ≤ target
    · simp only [migrationFold, if_pos h]
      rcases ih (applyMigrationEntry st e0).1 with heq | ⟨e, he, hq, heq⟩
      · exact Or.inr ⟨e0, by simp, h, by rw [heq, applyMigrationEntry_version]⟩
      · exact Or.inr ⟨e, by simp [he], hq, heq⟩
    · simp only [migrationFold, if_neg h]
      rcases ih st with heq | ⟨e, he, hq, heq⟩
      · exact Or.inl heq
      · exact Or.inr ⟨e, by simp [he], hq, heq⟩

/-- When no entry qualifies, the loop changes nothing and performs zero
schema changes. -/
theorem migrationFold_no_qual (cur target : Nat) :
    ∀ (L : List StructureDefinition) (st : SchemaState),
      (∀ e ∈ L, ¬(cur < e.version ∧ e.version ≤ target)) →
      migrationFold cur target st L = (st, 0) := by
  intro L
  induction L with
  | nil => intro st _; rfl
  | cons e0 rest ih =>
    intro st hall
    simp only [migrationFold, if_neg (hall e0 (by simp))]
    exact ih st (fun x hx => hall x (by simp [hx]))

/-- The sort the migration runner performs leaves the entries sorted
ascending by version. -/
theorem sortSchemas_sorted (schemas : List StructureDefinition) :
    (sortSchemas schemas).Sorted (fun a b => a.version ≤ b.version) := by
  haveI : IsTotal StructureDefinition (fun a b => a.version ≤ b.version) :=
    ⟨fun a b => Nat.le_total a.version b.version⟩
  haveI : IsTrans StructureDefinition (fun a b => a.version ≤ b.version) :=
    ⟨fun _ _ _ hab hbc => Nat.le_trans hab hbc⟩
  exact List.sorted_insertionSort _ _


/-- Claim C8: opening the store a second time against an already-migrated
database performs zero additional schema changes and leaves the persisted
schema version unchanged; the migration loop applies exactly the entries with
`version > currentVersion` and `version <= targetVersion`; and table/index
creation is idempotent (a second `_createOrUpdateTable` with the same
declaration is a no-op). -/
theorem claim_C8_migration_idempotent :
    (∀ (st : SchemaState) (version : Nat) (schemas : List StructureDefinition),
      openStore (openStore st version schemas).1 version schemas =
        ((openStore st version schemas).1, 0)) ∧
    (∀ (st : SchemaState) (cur target : Nat) (schemas : List StructureDefinition),
      performMigrations st cur target schemas =
        applyEntries st ((sortSchemas schemas).filter
          (fun e => decide (cur < e.version ∧ e.version ≤ target)))) ∧
    (∀ (st : SchemaState) (name : String) (tdef : StoreDefinition),
      createOrUpdateTable (createOrUpdateTable st name tdef).1 name tdef =
        ((createOrUpdateTable st name tdef).1, 0)) := by
  refine ⟨?_, ?_, ?_⟩
  · intro st version schemas
    by_cases h : st.userVersion < version
    · simp only [openStore, if_pos h]
      by_cases h2 : (performMigrations st st.userVersion version schemas).1.userVersion
          < version
      · simp only [openStore, if_pos h2]
        unfold performMigrations
        apply migrationFold_no_qual
        intro e he hq
        have hcur_le : st.userVersion ≤
            (migrationFold st.userVersion version st (sortSchemas schemas)).1.userVersion := by
          rcases migrationFold_version_source st.userVersion version
              (sortSchemas schemas) st with heq | ⟨e2, _, hq2, heq⟩
          · rw [heq]
          · rw [heq]; exact Nat.le_of_lt hq2.1
        have hq1 : st.userVersion < e.version ∧ e.version ≤ version := by
          refine ⟨Nat.lt_of_le_of_lt hcur_le ?_, hq.2⟩
          exact hq.1
        have hle := migrationFold_final_ge st.userVersion version
          (sortSchemas schemas) st (sortSchemas_sorted schemas) e he hq1
        have hlt := hq.1
        simp only [performMigrations] at hlt
        omega
      · simp only [openStore, if_neg h2]
    · simp only [openStore, if_neg h]
  · intro st cur target schemas
    exact migrationFold_eq_applyEntries cur target (sortSchemas schemas) st
  · intro st name tdef
    exact createOrUpdateTable_idem st name tdef


end Yomitan
